import Mathlib

/- Verification of latbin's matching module (latbin/matching.py) against its
specification.  The Python source is shallowly embedded in Lean:

* points and rows are `List ℚ`; numpy's elementwise arithmetic on equal-length
  vectors becomes `List.zipWith`;
* `pandas.DataFrame`s are `Frame`s: an explicit column count (the column
  `RangeIndex`) together with the list of rows;
* the candidate dictionaries built by the Python code map a quantized cell
  tuple to the set of point indices that can reach it; a dictionary lookup is
  embedded as the predicate "some recorded (index, offset) pair produces this
  key", which yields exactly the same set of candidate indices (Python
  set/dict iteration order is not part of the contract, see spec §3);
* wherever the code computes `np.sqrt(dist_sq)` the embedding keeps the exact
  squared distance `dist_sq` instead: the square root is injective and
  monotone on the nonnegatives, so pair sets, comparisons of distances to a
  threshold, and "distance equals 0" statements transfer verbatim, while the
  embedding stays inside ℚ;
* exceptions (`NotImplementedError`, pandas `KeyError`, the `ValueError` from
  unpacking an empty index array) become the `Except MatchErr` monad;
* `latbin/lattice.py` is not among the sources at hand, so `quantize` and
  `neighborhood` are modelled from the spec (see their doc comments).
-/

/-- Squared Euclidean distance `np.sum((a - b)**2)` between two rows
(matching.py line 19, 67, 171). -/
def distSq (p q : List ℚ) : ℚ := (List.zipWith (fun a b => (a - b)^2) p q).sum

/-- Modelled from the spec: `latbin.lattice.ALattice.quantize` (the lattice
module is not among the given sources).  Spec §4.1: "for each point, for each
dimension, compute the cell index as round(component / scale_component)
(nearest-integer quantization to a uniform grid)". -/
def quantize (scale : ℚ) (p : List ℚ) : List ℤ := p.map (fun c => round (c / scale))

/-- Squared Euclidean norm of an integer offset vector, in lattice-cell
units. -/
def normSq (v : List ℤ) : ℤ := (v.map (fun c => c * c)).sum

/-- The integers `-b, ..., b`. -/
def intRange (b : ℕ) : List ℤ := (List.range (2*b+1)).map (fun i : ℕ => (i : ℤ) - b)

/-- All integer vectors of length `n` with every coordinate in `-b..b`. -/
def allVecs (b : ℕ) : ℕ → List (List ℤ)
  | 0 => [[]]
  | n+1 => (intRange b).flatMap (fun c => (allVecs b n).map (fun v => c :: v))

/-- The all-zero offset vector of length `n`. -/
def zeroVec (n : ℕ) : List ℤ := List.replicate n 0

/-- Modelled from the spec: `latbin.lattice.ALattice.neighborhood` (the
lattice module is not among the given sources).  Spec §4.1: "enumerates every
integer vector of length n whose Euclidean norm is ≤ lattice_space_radius,
excluding the zero vector unless include_origin is true ... implement by
bounding each coordinate by ⌊radius⌋ and filtering by norm". -/
def neighborhood (radius : ℚ) (n : ℕ) (includeOrigin : Bool) : List (List ℤ) :=
  (allVecs (Int.toNat ⌊radius⌋) n).filter
    (fun v => decide ((normSq v : ℚ) ≤ radius^2) && (includeOrigin || decide (v ≠ zeroVec n)))

/-- Componentwise sum of a cell coordinate and an offset vector (numpy `+`,
matching.py line 47 and 147). -/
def vadd (u v : List ℤ) : List ℤ := List.zipWith (· + ·) u v

/-- matching.py lines 143-159 and 167: the candidate dictionary `cdict` maps
each (possibly offset-shifted) quantized cell of the short data set to the set
of short indices that produced it; looking up a long point's cell therefore
finds short index `si` iff the long cell equals the short cell itself
(`all_trans[0] = short_pts`) or that cell shifted by a neighborhood vector. -/
def candB (nbhd : List (List ℤ)) (clong cshort : List ℤ) : Bool :=
  clong == cshort || nbhd.any (fun v => clong == vadd cshort v)

/-- matching.py lines 161-175: for every long point, look its quantized cell
up in the candidate dictionary and keep every candidate short index whose
exact squared distance is `<= tolerance**2` (`dthresh`).  Each entry records
(long index, short index, squared distance). -/
def coreList (nbhd : List (List ℤ)) (scale tolSq : ℚ) (longR shortR : List (List ℚ)) :
    List (ℕ × ℕ × ℚ) :=
  (List.range longR.length).flatMap (fun li =>
    ((List.range shortR.length).filter (fun si =>
        candB nbhd (quantize scale (longR.getD li [])) (quantize scale (shortR.getD si []))
          && decide (distSq (longR.getD li []) (shortR.getD si []) ≤ tolSq))).map
      (fun si => (li, si, distSq (longR.getD li []) (shortR.getD si []))))

/-- An entry of the `cols` argument of `match`: a bare column identifier or a
pair (tuple) of identifiers, one per data set (matching.py docstring lines
95-106). -/
inductive ColSpecEntry where
  | single (c : ℕ)
  | pair (c1 c2 : ℕ)
deriving DecidableEq

/-- A key used to select a DataFrame column: either a plain integer label or a
tuple — the Python code can put a whole tuple into `cols1`/`cols2`, and a
tuple is never a column label of a DataFrame with a plain RangeIndex. -/
inductive ColKey where
  | name (c : ℕ)
  | tup (c1 c2 : ℕ)
deriving DecidableEq

/-- matching.py lines 115-124: build `cols1` and `cols2` from `cols`.  The
loop body has no `else`: when the entry is a tuple it appends the two
components and THEN still falls through to the unconditional
`cols1.append(ccol); cols2.append(ccol)`, so the raw tuple itself also lands
in both key lists. -/
def resolveCols : List ColSpecEntry → List ColKey × List ColKey
  | [] => ([], [])
  | .single c :: rest =>
      let r := resolveCols rest
      (.name c :: r.1, .name c :: r.2)
  | .pair c1 c2 :: rest =>
      let r := resolveCols rest
      (.name c1 :: .tup c1 c2 :: r.1, .name c2 :: .tup c1 c2 :: r.2)

/-- A numeric `pandas.DataFrame`: a RangeIndex of `ncols` column labels
`0..ncols-1` together with the rows. -/
structure Frame where
  ncols : ℕ
  rows : List (List ℚ)

/-- Every row of a well-formed DataFrame has exactly `ncols` entries. -/
def Frame.WF (f : Frame) : Prop := ∀ r ∈ f.rows, r.length = f.ncols

/-- Errors surfaced by the embedded functions. -/
inductive MatchErr where
  /-- Python `raise NotImplementedError()` for `tolerance <= 0` (matching.py 126-127). -/
  | notImplemented
  /-- pandas `KeyError`: a requested column label is not in the frame. -/
  | keyError
  /-- Python `ValueError` from unpacking an empty index array (matching.py 79-81). -/
  | valueError
deriving DecidableEq

/-- Is `k` a column label of `f`?  The plain labels `0..ncols-1` are; a tuple
is never a label of a RangeIndex frame. -/
def keyOk (f : Frame) (k : ColKey) : Bool :=
  match k with
  | .name c => c < f.ncols
  | .tup _ _ => false

/-- The value a key selects from a row (meaningful only when `keyOk` holds, in
which case the key is a plain in-range label). -/
def keyVal (r : List ℚ) (k : ColKey) : ℚ :=
  match k with
  | .name c => r.getD c 0
  | .tup _ _ => 0

/-- Selection `data[keys].values`: select the keyed columns of every row, raising
`KeyError` when some key is not a column label of the frame. -/
def selectVals (f : Frame) (keys : List ColKey) : Except MatchErr (List (List ℚ)) :=
  if keys.all (keyOk f) then .ok (f.rows.map (fun r => keys.map (keyVal r)))
  else .error .keyError

/-- Default `cols = data1.columns` when the `cols` argument is `None`
(matching.py 112-113). -/
def defaultCols (f : Frame) : List ColSpecEntry := (List.range f.ncols).map .single

/-- matching.py lines 86-186, the module-level `match` function: resolve the
column specification, refuse `tolerance <= 0` with `NotImplementedError`,
swap so that the longer data set is probed against a candidate table built
from the shorter one (`switched`), quantize with a lattice of scale
`1.3 * tolerance` and neighborhood radius `2.1` (origin excluded — the short
set's own cells are entry `all_trans[0]`), verify candidates by exact squared
distance `<= tolerance**2`, and finally undo the swap.  The `E` suffix marks
the embedding into `Except` (`match` is a Lean keyword). -/
def matchE (data1 data2 : Frame) (tolerance : ℚ) (cols : Option (List ColSpecEntry)) :
    Except MatchErr (List (ℕ × ℕ × ℚ)) :=
  let colsList := cols.getD (defaultCols data1)
  let cs := resolveCols colsList
  if tolerance ≤ 0 then .error .notImplemented
  else
    let dl := if data2.rows.length > data1.rows.length then data2 else data1
    let ds := if data2.rows.length > data1.rows.length then data1 else data2
    match selectVals dl cs.1, selectVals ds cs.2 with
    | .ok d1vals, .ok d2vals =>
        let res := coreList (neighborhood (21/10) colsList.length false)
          (13/10 * tolerance) (tolerance^2) d1vals d2vals
        if data2.rows.length > data1.rows.length then
          .ok (res.map (fun t => (t.2.1, t.1, t.2.2)))
        else .ok res
    | .error e, _ => .error e
    | .ok _, .error e => .error e

/-- matching.py lines 8-24: the brute-force O(N·M) oracle.  A double loop over
all index pairs keeping those with squared distance `<= tolerance**2` (the
returned third components are squared distances, see the header comment). -/
def brute_match (data1 data2 : List (List ℚ)) (tolerance : ℚ) : List (ℕ × ℕ × ℚ) :=
  (List.range data1.length).flatMap (fun i =>
    ((List.range data2.length).filter (fun j =>
        decide (distSq (data1.getD i []) (data2.getD j []) ≤ tolerance^2))).map
      (fun j => (i, j, distSq (data1.getD i []) (data2.getD j []))))

/-- matching.py lines 31-62: `MatchingIndexer.__init__` stores, for every
reference point and every neighborhood vector of radius `2.0` (origin
included), the shifted cell as a key for that reference index;
`MatchingIndexer.match` then quantizes each query point once and collects
`potential_matches` by a single dictionary lookup per query point.  This is
the potential (unverified) pair list. -/
def MIpotential (x : List (List ℚ)) (tolerance : ℚ) (xq : List (List ℚ)) : List (ℕ × ℕ) :=
  (List.range xq.length).flatMap (fun oi =>
    ((List.range x.length).filter (fun j =>
        (neighborhood 2 ((x.headD []).length) true).any (fun v =>
          quantize (tolerance * (13/10)) (xq.getD oi [])
            == vadd (quantize (tolerance * (13/10)) (x.getD j [])) v))).map
      (fun j => (oi, j)))

/-- matching.py lines 63-72: `MatchingIndexer.match` keeps a potential pair
iff its exact squared distance is strictly `< tol_sq`, returning the cleaned
pair list together with the (squared, see header) distances. -/
def MIpairs (x : List (List ℚ)) (tolerance : ℚ) (xq : List (List ℚ)) :
    List (ℕ × ℕ) × List ℚ :=
  let cleaned := (MIpotential x tolerance xq).filter
    (fun p => decide (distSq (xq.getD p.1 []) (x.getD p.2 []) < tolerance^2))
  (cleaned, cleaned.map (fun p => distSq (xq.getD p.1 []) (x.getD p.2 [])))

/-- A `scipy.sparse.coo_matrix`: a shape plus the list of explicitly stored
(row, column, value) entries. -/
structure Coo where
  shape : ℕ × ℕ
  entries : List (ℕ × ℕ × ℚ)

/-- matching.py lines 75-83: `MatchingIndexer.distance_matrix` converts the
matched pair list to an array and unpacks its transpose into the row and
column sequences of a coo matrix.  `np.asarray` of an EMPTY pair list is a
one-dimensional length-0 array, and unpacking its transpose into
`(row, col)` raises `ValueError`; a nonempty list of pairs gives a (k, 2)
array whose transpose unpacks fine. -/
def MatchingIndexer.distance_matrix (x : List (List ℚ)) (tolerance : ℚ)
    (xq : List (List ℚ)) : Except MatchErr Coo :=
  let res := MIpairs x tolerance xq
  if res.1.isEmpty then .error .valueError
  else .ok ⟨(xq.length, x.length),
    (res.1.zip res.2).map (fun p => (p.1.1, p.1.2, p.2))⟩

/-- matching.py lines 189-220: `sparse_distance_matrix` matches `data1`
against `data2` (against itself when `data2` is `None`) with `match` at
tolerance `max_dist` and stores the kernel-weighted distances in a coo matrix
of shape (n1, n2).  The code applies `rbf` to the reported distances; since
the embedding carries squared distances, the kernel parameter `rbf` here is
the composite d² ↦ rbf(√d²) — e.g. the Python default
`lambda x: np.exp(-0.5*x**2)` becomes `s ↦ exp(-s/2)`, still `1` at `s = 0`. -/
def sparse_distance_matrix (data1 : Frame) (data2 : Option Frame) (maxDist : ℚ)
    (rbf : ℚ → ℚ) (cols : Option (List ColSpecEntry)) : Except MatchErr Coo :=
  let d2 := data2.getD data1
  match matchE data1 d2 maxDist cols with
  | .error e => .error e
  | .ok res =>
      .ok ⟨(data1.rows.length, d2.rows.length),
        res.map (fun t => (t.1, t.2.1, rbf t.2.2))⟩

/-! ### Helper lemmas about the embedded data structures -/

theorem mem_intRange (b : ℕ) (c : ℤ) : c ∈ intRange b ↔ -(b : ℤ) ≤ c ∧ c ≤ b := by
  unfold intRange
  constructor
  · intro h
    obtain ⟨i, hi, hc⟩ := List.mem_map.mp h
    rw [List.mem_range] at hi
    omega
  · intro h
    refine List.mem_map.mpr ⟨(c + b).toNat, ?_, ?_⟩
    · rw [List.mem_range]; omega
    · omega

theorem mem_allVecs (b n : ℕ) (v : List ℤ) :
    v ∈ allVecs b n ↔ v.length = n ∧ ∀ c ∈ v, -(b : ℤ) ≤ c ∧ c ≤ b := by
  induction n generalizing v with
  | zero =>
    simp only [allVecs, List.mem_singleton, List.length_eq_zero]
    constructor
    · rintro rfl
      simp
    · rintro ⟨rfl, -⟩
      rfl
  | succ n ih =>
    simp only [allVecs, List.mem_flatMap, List.mem_map]
    constructor
    · rintro ⟨c, hc, w, hw, rfl⟩
      obtain ⟨hlen, hbound⟩ := (ih w).mp hw
      refine ⟨by simp [hlen], ?_⟩
      intro d hd
      rcases List.mem_cons.mp hd with rfl | hd
      · exact (mem_intRange b d).mp hc
      · exact hbound d hd
    · rintro ⟨hlen, hbound⟩
      cases v with
      | nil => simp at hlen
      | cons c w =>
        refine ⟨c, (mem_intRange b c).mpr (hbound c (by simp)), w, (ih w).mpr ?_, rfl⟩
        exact ⟨by simpa using hlen, fun d hd => hbound d (List.mem_cons_of_mem c hd)⟩

theorem mem_neighborhood (radius : ℚ) (n : ℕ) (io : Bool) (v : List ℤ) :
    v ∈ neighborhood radius n io ↔
      v ∈ allVecs (Int.toNat ⌊radius⌋) n ∧ (normSq v : ℚ) ≤ radius^2 ∧
        (io = true ∨ v ≠ zeroVec n) := by
  simp [neighborhood, List.mem_filter, Bool.and_eq_true, Bool.or_eq_true, and_assoc]

theorem length_of_mem_neighborhood {radius : ℚ} {n : ℕ} {io : Bool} {v : List ℤ}
    (h : v ∈ neighborhood radius n io) : v.length = n :=
  ((mem_allVecs _ _ _).mp ((mem_neighborhood _ _ _ _).mp h).1).1

theorem normSq_map_neg (v : List ℤ) : normSq (v.map (fun c => -c)) = normSq v := by
  induction v with
  | nil => rfl
  | cons a t ih =>
    simp only [normSq, List.map_cons, List.sum_cons] at *
    rw [neg_mul_neg, ih]

theorem map_neg_eq_zeroVec_iff (v : List ℤ) (n : ℕ) :
    v.map (fun c => -c) = zeroVec n ↔ v = zeroVec n := by
  induction v generalizing n with
  | nil => cases n <;> simp [zeroVec]
  | cons a t ih =>
    cases n with
    | zero => simp [zeroVec]
    | succ m =>
      have hm := ih m
      simp only [zeroVec, List.replicate_succ, List.map_cons, List.cons.injEq,
        neg_eq_zero] at *
      exact and_congr Iff.rfl hm

theorem neighborhood_neg_mem {radius : ℚ} {n : ℕ} {io : Bool} {v : List ℤ}
    (h : v ∈ neighborhood radius n io) :
    v.map (fun c => -c) ∈ neighborhood radius n io := by
  rw [mem_neighborhood] at h ⊢
  obtain ⟨hall, hnorm, hz⟩ := h
  obtain ⟨hlen, hbound⟩ := (mem_allVecs _ _ _).mp hall
  refine ⟨(mem_allVecs _ _ _).mpr ⟨by simp [hlen], ?_⟩, by rwa [normSq_map_neg], ?_⟩
  · intro c hc
    obtain ⟨d, hd, rfl⟩ := List.mem_map.mp hc
    have := hbound d hd
    omega
  · rcases hz with hio | hz
    · exact Or.inl hio
    · exact Or.inr fun hcon => hz ((map_neg_eq_zeroVec_iff v n).mp hcon)

theorem vadd_inv (v u w : List ℤ) (hw : w.length = v.length) (h : u = vadd w v) :
    w = vadd u (v.map (fun c => -c)) := by
  subst h
  induction v generalizing w with
  | nil =>
    rw [List.length_nil, List.length_eq_zero] at hw
    subst hw
    rfl
  | cons c vt ih =>
    cases w with
    | nil => simp at hw
    | cons b wt =>
      simp only [vadd, List.zipWith_cons_cons, List.map_cons, List.cons.injEq]
      refine ⟨by ring, ?_⟩
      exact ih wt (by simpa using hw)

theorem zeroVec_vadd_self : ∀ v : List ℤ, vadd (zeroVec v.length) v = v := by
  intro v
  induction v with
  | nil => rfl
  | cons c t ih =>
    show (0 + c) :: vadd (zeroVec t.length) t = c :: t
    rw [zero_add, ih]

theorem zeroVec_vadd {n : ℕ} {v : List ℤ} (hv : v.length = n) :
    vadd (zeroVec n) v = v := by
  rw [← hv]
  exact zeroVec_vadd_self v

theorem candB_eq_true_iff (nbhd : List (List ℤ)) (u w : List ℤ) :
    candB nbhd u w = true ↔ u = w ∨ ∃ v ∈ nbhd, u = vadd w v := by
  simp [candB, List.any_eq_true]

theorem candB_symm (radius : ℚ) (n : ℕ) (u w : List ℤ)
    (hu : u.length = n) (hw : w.length = n) :
    candB (neighborhood radius n false) u w = candB (neighborhood radius n false) w u := by
  rw [Bool.eq_iff_iff, candB_eq_true_iff, candB_eq_true_iff]
  have aux : ∀ a b : List ℤ, a.length = n → b.length = n →
      (a = b ∨ ∃ v ∈ neighborhood radius n false, a = vadd b v) →
      (b = a ∨ ∃ v ∈ neighborhood radius n false, b = vadd a v) := by
    rintro a b ha hb (rfl | ⟨v, hv, hvadd⟩)
    · exact Or.inl rfl
    · refine Or.inr ⟨v.map (fun c => -c), neighborhood_neg_mem hv, ?_⟩
      exact vadd_inv v a b (by rw [hb, length_of_mem_neighborhood hv]) hvadd
  exact ⟨aux u w hu hw, aux w u hw hu⟩

theorem distSq_comm (p q : List ℚ) : distSq p q = distSq q p := by
  unfold distSq
  rw [List.zipWith_comm_of_comm (fun a b => (a - b)^2) (fun x y => by ring)]

theorem distSq_self (p : List ℚ) : distSq p p = 0 := by
  unfold distSq
  rw [List.zipWith_same]
  simp

theorem distSq_nonneg (p q : List ℚ) : 0 ≤ distSq p q := by
  induction p generalizing q with
  | nil => simp [distSq]
  | cons a t ih =>
    cases q with
    | nil => simp [distSq]
    | cons b s =>
      simp only [distSq, List.zipWith_cons_cons, List.sum_cons]
      exact add_nonneg (sq_nonneg _) (ih s)

theorem map_getD_range (r : List ℚ) :
    (List.range r.length).map (fun c => r.getD c 0) = r := by
  induction r with
  | nil => rfl
  | cons a t ih =>
    rw [List.length_cons, List.range_succ_eq_map, List.map_cons, List.map_map]
    simp only [List.getD_cons_zero, Function.comp_def, Nat.succ_eq_add_one,
      List.getD_cons_succ]
    rw [ih]

theorem flatMap_const_nil {α β : Type} (l : List α) :
    (l.flatMap fun _ => ([] : List β)) = [] := by
  induction l <;> simp_all

theorem quantize_length (scale : ℚ) (p : List ℚ) : (quantize scale p).length = p.length := by
  simp [quantize]

theorem row_length {f : Frame} (h : f.WF) {i : ℕ} (hi : i < f.rows.length) :
    (f.rows.getD i []).length = f.ncols := by
  rw [List.getD_eq_getElem f.rows [] hi]
  exact h _ (List.getElem_mem hi)

theorem mem_coreList {nbhd : List (List ℤ)} {scale tolSq : ℚ} {L S : List (List ℚ)}
    {li si : ℕ} {d : ℚ} :
    (li, si, d) ∈ coreList nbhd scale tolSq L S ↔
      li < L.length ∧ si < S.length ∧
      candB nbhd (quantize scale (L.getD li [])) (quantize scale (S.getD si [])) = true ∧
      distSq (L.getD li []) (S.getD si []) ≤ tolSq ∧
      d = distSq (L.getD li []) (S.getD si []) := by
  simp only [coreList, List.mem_flatMap, List.mem_map, List.mem_filter, List.mem_range,
    Bool.and_eq_true, decide_eq_true_eq, Prod.mk.injEq]
  constructor
  · rintro ⟨a, ha, b, ⟨hb, hc1, hc2⟩, rfl, rfl, rfl⟩
    exact ⟨ha, hb, hc1, hc2, rfl⟩
  · rintro ⟨ha, hb, hc1, hc2, rfl⟩
    exact ⟨li, ha, si, ⟨hb, hc1, hc2⟩, rfl, rfl, rfl⟩

theorem mem_MIpotential {x xq : List (List ℚ)} {tolerance : ℚ} {oi j : ℕ} :
    (oi, j) ∈ MIpotential x tolerance xq ↔
      oi < xq.length ∧ j < x.length ∧
      ∃ v ∈ neighborhood 2 ((x.headD []).length) true,
        quantize (tolerance * (13/10)) (xq.getD oi [])
          = vadd (quantize (tolerance * (13/10)) (x.getD j [])) v := by
  simp only [MIpotential, List.mem_flatMap, List.mem_map, List.mem_filter, List.mem_range,
    List.any_eq_true, beq_iff_eq, Prod.mk.injEq]
  constructor
  · rintro ⟨a, ha, b, ⟨hb, hv⟩, rfl, rfl⟩
    exact ⟨ha, hb, hv⟩
  · rintro ⟨ha, hb, hv⟩
    exact ⟨oi, ha, j, ⟨hb, hv⟩, rfl, rfl⟩

theorem mem_MIpairs {x xq : List (List ℚ)} {tolerance : ℚ} {p : ℕ × ℕ} :
    p ∈ (MIpairs x tolerance xq).1 ↔
      p ∈ MIpotential x tolerance xq ∧
      distSq (xq.getD p.1 []) (x.getD p.2 []) < tolerance^2 := by
  simp [MIpairs, List.mem_filter]

theorem resolveCols_map_single (l : List ℕ) :
    resolveCols (l.map .single) = (l.map .name, l.map .name) := by
  induction l with
  | nil => rfl
  | cons a t ih => simp only [List.map_cons, resolveCols, ih]

theorem resolveCols_defaultCols (f : Frame) :
    resolveCols (defaultCols f)
      = ((List.range f.ncols).map .name, (List.range f.ncols).map .name) :=
  resolveCols_map_single _

theorem defaultCols_length (f : Frame) : (defaultCols f).length = f.ncols := by
  simp [defaultCols]

theorem selectVals_names (f : Frame) (hwf : f.WF) :
    selectVals f ((List.range f.ncols).map .name) = .ok f.rows := by
  unfold selectVals
  rw [if_pos]
  · congr 1
    have h1 : ∀ r ∈ f.rows, (((List.range f.ncols).map ColKey.name).map (keyVal r)) = id r := by
      intro r hr
      rw [List.map_map]
      show (List.range f.ncols).map (fun c => r.getD c 0) = r
      rw [← hwf r hr, map_getD_range]
    rw [List.map_congr_left h1, List.map_id]
  · rw [List.all_eq_true]
    intro k hk
    obtain ⟨c, hc, rfl⟩ := List.mem_map.mp hk
    rw [List.mem_range] at hc
    simpa [keyOk] using hc

theorem selectVals_names_of_eq (f : Frame) (n : ℕ) (hwf : f.WF) (hn : f.ncols = n) :
    selectVals f ((List.range n).map .name) = .ok f.rows := by
  subst hn
  exact selectVals_names f hwf

theorem candB_refl (nbhd : List (List ℤ)) (u : List ℤ) : candB nbhd u u = true := by
  simp [candB]

/-- Unfolding of `matchE` at `cols = None`, positive tolerance and well-formed
frames of equal width: the result is the core hash-join list over the
(long, short) ordering, index-swapped back when the inputs were switched. -/
theorem matchE_eq_core (f1 f2 : Frame) (tolerance : ℚ) (htol : 0 < tolerance)
    (h1 : f1.WF) (h2 : f2.WF) (hc : f2.ncols = f1.ncols) :
    matchE f1 f2 tolerance none =
      .ok (if f2.rows.length > f1.rows.length then
        (coreList (neighborhood (21/10) f1.ncols false) (13/10 * tolerance)
          (tolerance^2) f2.rows f1.rows).map (fun t => (t.2.1, t.1, t.2.2))
      else coreList (neighborhood (21/10) f1.ncols false) (13/10 * tolerance)
        (tolerance^2) f1.rows f2.rows) := by
  unfold matchE
  simp only [Option.getD_none, resolveCols_defaultCols, defaultCols_length]
  rw [if_neg (not_le.mpr htol)]
  by_cases hsw : f2.rows.length > f1.rows.length
  · simp only [if_pos hsw]
    rw [selectVals_names_of_eq f2 f1.ncols h2 hc, selectVals_names f1 h1]
  · simp only [if_neg hsw]
    rw [selectVals_names f1 h1, selectVals_names_of_eq f2 f1.ncols h2 hc]

/-- Membership in the result of `matchE` (cols = None): a pair is reported iff
the two rows land in equal or neighboring quantized cells and their exact
squared distance is at most `tolerance^2`, stated uniformly in the caller's
(data1, data2) orientation. -/
theorem matchE_mem (f1 f2 : Frame) (tolerance : ℚ) (htol : 0 < tolerance)
    (h1 : f1.WF) (h2 : f2.WF) (hc : f2.ncols = f1.ncols) :
    ∃ l, matchE f1 f2 tolerance none = .ok l ∧
      ∀ i j d, (i, j, d) ∈ l ↔
        i < f1.rows.length ∧ j < f2.rows.length ∧
        candB (neighborhood (21/10) f1.ncols false)
          (quantize (13/10 * tolerance) (f1.rows.getD i []))
          (quantize (13/10 * tolerance) (f2.rows.getD j [])) = true ∧
        d = distSq (f1.rows.getD i []) (f2.rows.getD j []) ∧
        d ≤ tolerance^2 := by
  rw [matchE_eq_core f1 f2 tolerance htol h1 h2 hc]
  refine ⟨_, rfl, ?_⟩
  intro i j d
  by_cases hsw : f2.rows.length > f1.rows.length
  · rw [if_pos hsw]
    constructor
    · intro hmem
      obtain ⟨t, ht, hteq⟩ := List.mem_map.mp hmem
      have ht' : t = (j, i, d) := by
        obtain ⟨a, b, dd⟩ := t
        simp only [Prod.mk.injEq] at hteq
        obtain ⟨ha', hb', hd'⟩ := hteq
        simp [ha', hb', hd']
      rw [ht'] at ht
      obtain ⟨hj, hi, hcand, hdist, hd⟩ := mem_coreList.mp ht
      have hlen1 : (quantize (13/10 * tolerance) (f1.rows.getD i [])).length = f1.ncols := by
        rw [quantize_length]
        exact row_length h1 hi
      have hlen2 : (quantize (13/10 * tolerance) (f2.rows.getD j [])).length = f1.ncols := by
        rw [quantize_length, row_length h2 hj, hc]
      refine ⟨hi, hj, ?_, ?_, ?_⟩
      · rw [candB_symm (21/10) f1.ncols _ _ hlen1 hlen2]
        exact hcand
      · rw [hd, distSq_comm]
      · rw [hd]
        exact hdist
    · rintro ⟨hi, hj, hcand, hd, hdle⟩
      have hlen1 : (quantize (13/10 * tolerance) (f1.rows.getD i [])).length = f1.ncols := by
        rw [quantize_length]
        exact row_length h1 hi
      have hlen2 : (quantize (13/10 * tolerance) (f2.rows.getD j [])).length = f1.ncols := by
        rw [quantize_length, row_length h2 hj, hc]
      refine List.mem_map.mpr ⟨(j, i, d), mem_coreList.mpr ⟨hj, hi, ?_, ?_, ?_⟩, rfl⟩
      · rw [candB_symm (21/10) f1.ncols _ _ hlen2 hlen1]
        exact hcand
      · rw [distSq_comm, ← hd]
        exact hdle
      · rw [hd, distSq_comm]
  · rw [if_neg hsw]
    constructor
    · intro h
      obtain ⟨hi, hj, hcand, hdist, hd⟩ := mem_coreList.mp h
      refine ⟨hi, hj, hcand, hd, ?_⟩
      rw [hd]
      exact hdist
    · rintro ⟨hi, hj, hcand, hd, hdle⟩
      refine mem_coreList.mpr ⟨hi, hj, hcand, ?_, hd⟩
      rw [← hd]
      exact hdle

theorem cell_length {f : Frame} (hf : f.WF) {i : ℕ} (hi : i < f.rows.length) (s : ℚ) :
    (quantize s (f.rows.getD i [])).length = f.ncols := by
  rw [quantize_length]
  exact row_length hf hi

theorem mem_brute_match {data1 data2 : List (List ℚ)} {tolerance : ℚ} {i j : ℕ} {d : ℚ} :
    (i, j, d) ∈ brute_match data1 data2 tolerance ↔
      i < data1.length ∧ j < data2.length ∧
      distSq (data1.getD i []) (data2.getD j []) ≤ tolerance^2 ∧
      d = distSq (data1.getD i []) (data2.getD j []) := by
  simp only [brute_match, List.mem_flatMap, List.mem_map, List.mem_filter, List.mem_range,
    decide_eq_true_eq, Prod.mk.injEq]
  constructor
  · rintro ⟨a, ha, b, ⟨hb, hle⟩, rfl, rfl, rfl⟩
    exact ⟨ha, hb, hle, rfl⟩
  · rintro ⟨ha, hb, hle, rfl⟩
    exact ⟨i, ha, j, ⟨hb, hle⟩, rfl, rfl, rfl⟩

theorem coreList_nil_long (nbhd : List (List ℤ)) (scale tolSq : ℚ) (S : List (List ℚ)) :
    coreList nbhd scale tolSq [] S = [] := rfl

theorem coreList_nil_short (nbhd : List (List ℤ)) (scale tolSq : ℚ) (L : List (List ℚ)) :
    coreList nbhd scale tolSq L [] = [] := by
  unfold coreList
  simp only [List.length_nil, List.range_zero, List.filter_nil, List.map_nil]
  exact flatMap_const_nil _

/-! ### Claim theorems -/

/-- C3: for every input, the module-level `match` raises the dedicated
`NotImplementedError` whenever tolerance ≤ 0 — before producing any partial
result (the check precedes the lattice build, the swap and the column
selection) — and never silently falls back to exact-equality matching.  The
error is a distinct constructor, different from the other error modes. -/
theorem match_nonpositive_tolerance_raises (f1 f2 : Frame)
    (cols : Option (List ColSpecEntry)) (tolerance : ℚ) (h : tolerance ≤ 0) :
    matchE f1 f2 tolerance cols = .error .notImplemented ∧
    MatchErr.notImplemented ≠ MatchErr.keyError ∧
    MatchErr.notImplemented ≠ MatchErr.valueError := by
  refine ⟨?_, by simp, by simp⟩
  unfold matchE
  simp only [if_pos h]

/-- Witness for C3 at tolerance 0 (the Python default). -/
theorem match_nonpositive_tolerance_raises_witness :
    (0:ℚ) ≤ 0 ∧ matchE ⟨1, [[0]]⟩ ⟨1, [[0]]⟩ 0 none = .error .notImplemented ∧
    MatchErr.notImplemented ≠ MatchErr.keyError ∧
    MatchErr.notImplemented ≠ MatchErr.valueError :=
  ⟨le_rfl, match_nonpositive_tolerance_raises ⟨1, [[0]]⟩ ⟨1, [[0]]⟩ none 0 le_rfl⟩

/-- C9: `brute_match` never raises for tolerance ≤ 0 — it is a total double
loop comparing squared distance against tolerance², so a negative tolerance
behaves exactly like its absolute value (tolerance = -1 returns all pairs
within distance 1), and tolerance = 0 (the Python default) returns exactly
the pairs at distance 0. -/
theorem brute_match_nonpositive_tolerance (data1 data2 : List (List ℚ)) (tolerance : ℚ) :
    brute_match data1 data2 tolerance = brute_match data1 data2 |tolerance| ∧
    (∀ i j d, (i, j, d) ∈ brute_match data1 data2 0 ↔
      i < data1.length ∧ j < data2.length ∧ d = 0 ∧
      distSq (data1.getD i []) (data2.getD j []) = 0) := by
  constructor
  · unfold brute_match
    rw [sq_abs]
  · intro i j d
    rw [mem_brute_match]
    constructor
    · rintro ⟨ha, hb, hle, rfl⟩
      have h0 : distSq (data1.getD i []) (data2.getD j []) = 0 :=
        le_antisymm (by simpa using hle) (distSq_nonneg _ _)
      exact ⟨ha, hb, h0, h0⟩
    · rintro ⟨ha, hb, hd, h0⟩
      refine ⟨ha, hb, by rw [h0]; norm_num, hd.trans h0.symm⟩

/-- C10: if the indexer query yields zero matched pairs,
`MatchingIndexer.distance_matrix` raises (the `ValueError` from unpacking the
empty index array) rather than returning an empty sparse matrix of shape
(len(x_query), len(reference)). -/
theorem distance_matrix_empty_raises (x xq : List (List ℚ)) (tolerance : ℚ)
    (h : (MIpairs x tolerance xq).1 = []) :
    MatchingIndexer.distance_matrix x tolerance xq = .error .valueError := by
  unfold MatchingIndexer.distance_matrix
  simp [h]

/-- Witness for C10: an empty query produces zero pairs, and
`distance_matrix` errors on it. -/
theorem distance_matrix_empty_raises_witness :
    (MIpairs [[(0:ℚ)]] 1 []).1 = [] ∧
    MatchingIndexer.distance_matrix [[(0:ℚ)]] 1 [] = .error .valueError :=
  ⟨by simp [MIpairs, MIpotential], distance_matrix_empty_raises [[(0:ℚ)]] [] 1
    (by simp [MIpairs, MIpotential])⟩

/-- C7: matching against an empty collection (either side) returns the empty
result triple and never raises, for every positive tolerance, whenever the
two frames have the equal column counts the tabular adapter guarantees. -/
theorem match_empty_input (f1 f2 : Frame) (tolerance : ℚ) (htol : 0 < tolerance)
    (h1 : f1.WF) (h2 : f2.WF) (hc : f2.ncols = f1.ncols)
    (he : f1.rows = [] ∨ f2.rows = []) :
    matchE f1 f2 tolerance none = .ok [] := by
  rw [matchE_eq_core f1 f2 tolerance htol h1 h2 hc]
  rcases he with he | he
  · rw [he]
    by_cases h2e : f2.rows.length > ([] : List (List ℚ)).length
    · rw [if_pos h2e, coreList_nil_short, List.map_nil]
    · rw [if_neg h2e, coreList_nil_long]
  · rw [he]
    rw [if_neg (by simp), coreList_nil_short]

/-- Witness for C7: an empty data1 against a one-point data2. -/
theorem match_empty_input_witness :
    (0:ℚ) < 1 ∧ matchE ⟨2, []⟩ ⟨2, [[0, 0]]⟩ 1 none = .ok [] :=
  ⟨one_pos, match_empty_input ⟨2, []⟩ ⟨2, [[0, 0]]⟩ 1 one_pos
    (by simp [Frame.WF]) (by simp [Frame.WF]) rfl (Or.inl rfl)⟩

/-- C4: `MatchingIndexer.match` keeps a candidate (query, reference) pair iff
its exact squared distance is strictly `< tolerance²`, whereas the
module-level `match` keeps a candidate pair iff its exact squared distance is
`≤ tolerance²`; the strict/non-strict asymmetry holds for all inputs. -/
theorem indexer_strict_module_nonstrict
    (x xq : List (List ℚ)) (xtol : ℚ) (f1 f2 : Frame) (tolerance : ℚ)
    (htol : 0 < tolerance) (h1 : f1.WF) (h2 : f2.WF) (hc : f2.ncols = f1.ncols) :
    (∀ p : ℕ × ℕ, p ∈ (MIpairs x xtol xq).1 ↔
      p ∈ MIpotential x xtol xq ∧
      distSq (xq.getD p.1 []) (x.getD p.2 []) < xtol^2) ∧
    (∃ l, matchE f1 f2 tolerance none = .ok l ∧
      ∀ i j d, (i, j, d) ∈ l ↔
        i < f1.rows.length ∧ j < f2.rows.length ∧
        candB (neighborhood (21/10) f1.ncols false)
          (quantize (13/10 * tolerance) (f1.rows.getD i []))
          (quantize (13/10 * tolerance) (f2.rows.getD j [])) = true ∧
        d = distSq (f1.rows.getD i []) (f2.rows.getD j []) ∧
        d ≤ tolerance^2) :=
  ⟨fun _ => mem_MIpairs, matchE_mem f1 f2 tolerance htol h1 h2 hc⟩

/-- Witness for C4, instantiating the indexer half at a concrete input. -/
theorem indexer_strict_module_nonstrict_witness :
    (0:ℚ) < 1 ∧ ∀ p : ℕ × ℕ, p ∈ (MIpairs [[(0:ℚ)]] 1 [[0]]).1 ↔
      p ∈ MIpotential [[(0:ℚ)]] 1 [[0]] ∧
      distSq ([[(0:ℚ)]].getD p.1 []) ([[(0:ℚ)]].getD p.2 []) < 1^2 :=
  ⟨one_pos, (indexer_strict_module_nonstrict [[(0:ℚ)]] [[0]] 1 ⟨1, [[0]]⟩ ⟨1, [[0]]⟩ 1
    one_pos (by simp [Frame.WF]) (by simp [Frame.WF]) rfl).1⟩

/-- C5: swap invariance — `match(A, B, tol)` and `match(B, A, tol)` succeed on
the same inputs and report exactly the same pairs with the index roles
exchanged and identical distances. -/
theorem match_swap_invariance (f1 f2 : Frame) (tolerance : ℚ) (htol : 0 < tolerance)
    (h1 : f1.WF) (h2 : f2.WF) (hc : f2.ncols = f1.ncols) :
    ∃ l1 l2, matchE f1 f2 tolerance none = .ok l1 ∧
      matchE f2 f1 tolerance none = .ok l2 ∧
      ∀ i j d, (i, j, d) ∈ l1 ↔ (j, i, d) ∈ l2 := by
  obtain ⟨l1, he1, hm1⟩ := matchE_mem f1 f2 tolerance htol h1 h2 hc
  obtain ⟨l2, he2, hm2⟩ := matchE_mem f2 f1 tolerance htol h2 h1 hc.symm
  refine ⟨l1, l2, he1, he2, ?_⟩
  intro i j d
  rw [hm1 i j d, hm2 j i d]
  constructor
  · rintro ⟨hi, hj, hcand, hd, hdle⟩
    refine ⟨hj, hi, ?_, ?_, hdle⟩
    · rw [hc, candB_symm (21/10) f1.ncols _ _ (by rw [cell_length h2 hj, hc])
        (cell_length h1 hi _)]
      exact hcand
    · rw [hd, distSq_comm]
  · rintro ⟨hj, hi, hcand, hd, hdle⟩
    refine ⟨hi, hj, ?_, ?_, hdle⟩
    · rw [hc] at hcand
      rw [candB_symm (21/10) f1.ncols _ _ (cell_length h1 hi _)
        (by rw [cell_length h2 hj, hc])]
      exact hcand
    · rw [hd, distSq_comm]

/-- Witness for C5 on concrete one-column frames. -/
theorem match_swap_invariance_witness :
    (0:ℚ) < 2 ∧ ∃ l1 l2, matchE ⟨1, [[0], [3]]⟩ ⟨1, [[1]]⟩ 2 none = .ok l1 ∧
      matchE ⟨1, [[1]]⟩ ⟨1, [[0], [3]]⟩ 2 none = .ok l2 ∧
      ∀ i j d, (i, j, d) ∈ l1 ↔ (j, i, d) ∈ l2 :=
  ⟨two_pos, match_swap_invariance ⟨1, [[0], [3]]⟩ ⟨1, [[1]]⟩ 2 two_pos
    (by simp [Frame.WF]) (by simp [Frame.WF]) rfl⟩

/-- C8: `sparse_distance_matrix` of a collection against itself (data2 =
None) with positive max_dist yields a square matrix whose every diagonal
position (i, i) carries an explicit entry of value `rbf 0`, and every
explicit diagonal entry has that value; under the default Gaussian kernel
(`exp(-0.5·d²)`, i.e. `s ↦ exp(-s/2)` on squared distances) that value is
1. -/
theorem sparse_distance_matrix_diagonal (f : Frame) (maxDist : ℚ) (rbf : ℚ → ℚ)
    (hwf : f.WF) (hd : 0 < maxDist) :
    ∃ m, sparse_distance_matrix f none maxDist rbf none = .ok m ∧
      m.shape = (f.rows.length, f.rows.length) ∧
      (∀ i, i < f.rows.length → (i, i, rbf 0) ∈ m.entries) ∧
      (∀ e ∈ m.entries, e.1 = e.2.1 → e.2.2 = rbf 0) ∧
      (fun s : ℝ => Real.exp (-(1/2) * s)) 0 = 1 := by
  obtain ⟨l, hel, hml⟩ := matchE_mem f f maxDist hd hwf hwf rfl
  unfold sparse_distance_matrix
  simp only [Option.getD_none]
  rw [hel]
  refine ⟨_, rfl, rfl, ?_, ?_, by norm_num [Real.exp_zero]⟩
  · intro i hi
    have h0 : (i, i, (0:ℚ)) ∈ l := by
      rw [hml i i 0]
      exact ⟨hi, hi, candB_refl _ _, (distSq_self _).symm, by positivity⟩
    exact List.mem_map.mpr ⟨(i, i, 0), h0, rfl⟩
  · intro e he hdiag
    obtain ⟨t, ht, rfl⟩ := List.mem_map.mp he
    obtain ⟨a, b, dd⟩ := t
    simp only at hdiag ⊢
    obtain ⟨ha, hb, hcand, hdeq, hdle⟩ := (hml a b dd).mp ht
    subst hdiag
    rw [hdeq, distSq_self]

/-- Witness for C8 on a concrete one-point frame with `rbf = id`. -/
theorem sparse_distance_matrix_diagonal_witness :
    (0:ℚ) < 1 ∧ Frame.WF ⟨1, [[0]]⟩ ∧
    (∃ m, sparse_distance_matrix ⟨1, [[0]]⟩ none 1 id none = .ok m ∧
      m.shape = (1, 1) ∧
      (∀ i, i < 1 → (i, i, (0:ℚ)) ∈ m.entries) ∧
      (∀ e ∈ m.entries, e.1 = e.2.1 → e.2.2 = (0:ℚ)) ∧
      (fun s : ℝ => Real.exp (-(1/2) * s)) 0 = 1) :=
  ⟨one_pos, by simp [Frame.WF],
    sparse_distance_matrix_diagonal ⟨1, [[0]]⟩ 1 id (by simp [Frame.WF]) one_pos⟩

theorem sub_of_vadd (v w : List ℤ) (hw : w.length = v.length) :
    List.zipWith (· - ·) (vadd w v) w = v := by
  induction v generalizing w with
  | nil =>
    rw [List.length_nil, List.length_eq_zero] at hw
    subst hw
    rfl
  | cons c vt ih =>
    cases w with
    | nil => simp at hw
    | cons b wt =>
      simp only [vadd, List.zipWith_cons_cons, List.cons.injEq]
      exact ⟨by ring, ih wt (by simpa using hw)⟩

/-- If the componentwise difference of two equal-length cells has squared norm
beyond `radius^2` (and the cells differ), the candidate dictionary cannot
match them: no neighborhood offset reaches that far. -/
theorem candB_eq_false_of_big (radius : ℚ) (n : ℕ) (u w : List ℤ)
    (hw : w.length = n)
    (hbig : ¬ ((normSq (List.zipWith (· - ·) u w) : ℚ) ≤ radius^2)) (hne : u ≠ w) :
    candB (neighborhood radius n false) u w = false := by
  rw [Bool.eq_false_iff]
  intro hc
  rcases (candB_eq_true_iff _ _ _).mp hc with h1 | ⟨v, hv, hvadd⟩
  · exact hne h1
  · refine hbig ?_
    have hvlen : v.length = n := length_of_mem_neighborhood hv
    have : List.zipWith (· - ·) u w = v := by
      rw [hvadd]
      exact sub_of_vadd v w (hw.trans hvlen.symm)
    rw [this]
    exact ((mem_neighborhood _ _ _ _).mp hv).2.1

/-- C1 (refuted on the code, dimension 5): the two points
(0.7, 0.7, 0.7, 0.7, 0.7) and (0.6, 0.6, 0.6, 0.6, 0.6) are at distance
√(1/20) ≈ 0.224 ≤ 1, so `brute_match` reports the pair (0, 0); but with
scale = 1.3·1 their quantized cells are (1,1,1,1,1) and (0,0,0,0,0), whose
difference has norm √5 ≈ 2.236 > 2.1, beyond the neighborhood radius — the
hash-join `match` returns no pairs at all.  The pair sets differ: `match` has
a false negative. -/
theorem match_vs_brute_divergence_dim5 :
    (0, 0, 1/20) ∈ brute_match [[7/10, 7/10, 7/10, 7/10, 7/10]]
      [[3/5, 3/5, 3/5, 3/5, 3/5]] 1 ∧
    matchE ⟨5, [[7/10, 7/10, 7/10, 7/10, 7/10]]⟩ ⟨5, [[3/5, 3/5, 3/5, 3/5, 3/5]]⟩ 1 none
      = .ok [] ∧
    (1/20 : ℚ) ≤ 1^2 := by
  have dd : distSq ([[(7:ℚ)/10, 7/10, 7/10, 7/10, 7/10]].getD 0 [])
      ([[(3:ℚ)/5, 3/5, 3/5, 3/5, 3/5]].getD 0 []) = 1/20 := by
    simp only [List.getD_cons_zero, distSq, List.zipWith_cons_cons,
      List.zipWith_nil_right, List.sum_cons, List.sum_nil]
    norm_num
  refine ⟨?_, ?_, by norm_num⟩
  · refine mem_brute_match.mpr ⟨by simp, by simp, ?_, dd.symm⟩
    rw [dd]
    norm_num
  · obtain ⟨l, hel, hml⟩ := matchE_mem ⟨5, [[7/10, 7/10, 7/10, 7/10, 7/10]]⟩
      ⟨5, [[3/5, 3/5, 3/5, 3/5, 3/5]]⟩ 1 one_pos
      (by simp [Frame.WF]) (by simp [Frame.WF]) rfl
    have e1 : quantize (13/10 * 1) ([[(7:ℚ)/10, 7/10, 7/10, 7/10, 7/10]].getD 0 [])
        = [1, 1, 1, 1, 1] := by
      simp only [List.getD_cons_zero, quantize, List.map_cons, List.map_nil]
      norm_num [round_eq]
    have e2 : quantize (13/10 * 1) ([[(3:ℚ)/5, 3/5, 3/5, 3/5, 3/5]].getD 0 [])
        = [0, 0, 0, 0, 0] := by
      simp only [List.getD_cons_zero, quantize, List.map_cons, List.map_nil]
      norm_num [round_eq]
    have hfar : candB (neighborhood (21/10) 5 false) [1, 1, 1, 1, 1] [0, 0, 0, 0, 0]
        = false := by
      refine candB_eq_false_of_big (21/10) 5 _ _ (by simp) ?_ (by simp)
      simp only [List.zipWith_cons_cons, List.zipWith_nil_right]
      norm_num [normSq, List.map_cons, List.map_nil, List.sum_cons, List.sum_nil]
    have hnil : l = [] := by
      rw [List.eq_nil_iff_forall_not_mem]
      intro t ht
      obtain ⟨i, j, d⟩ := t
      obtain ⟨hi, hj, hcand, -, -⟩ := (hml i j d).mp ht
      simp only [List.length_cons, List.length_nil] at hi hj
      have hi0 : i = 0 := by omega
      have hj0 : j = 0 := by omega
      subst hi0
      subst hj0
      rw [e1, e2, hfar] at hcand
      exact Bool.false_ne_true hcand
    rw [hnil] at hel
    exact hel

/-- C2 (the code contradicts its own docstring): on the docstring's own
example `cols = [(0, 4), 3]` the resolution loop — missing an `else` — puts
the raw tuple itself into both column-key lists in addition to its
components, so a pair entry contributes TWO entries per list instead of one,
and the subsequent `data1[cols1]` selection raises `KeyError` because a tuple
is not a column label of a RangeIndex frame. -/
theorem match_cols_pair_entry_bug :
    resolveCols [.pair 0 4, .single 3]
      = ([.name 0, .tup 0 4, .name 3], [.name 4, .tup 0 4, .name 3]) ∧
    matchE ⟨5, [[0, 0, 0, 0, 0]]⟩ ⟨5, [[0, 0, 0, 0, 0]]⟩ 1
      (some [.pair 0 4, .single 3]) = .error .keyError := by
  refine ⟨rfl, ?_⟩
  simp only [matchE, Option.getD_some, ite_self]
  rw [if_neg (by norm_num : ¬(1:ℚ) ≤ 0)]
  rw [show selectVals ⟨5, [[0, 0, 0, 0, 0]]⟩
      (resolveCols [ColSpecEntry.pair 0 4, ColSpecEntry.single 3]).1
      = .error .keyError from by simp [resolveCols, selectVals, keyOk]]

/-- C6: the concrete scenario — data1 = [[0,0],[5,5]], data2 =
[[0.1,0.1],[10,10]], tolerance = 1.0 yields exactly the single pair
(index 0, index 0) with squared distance 1/50 = 0.02 (i.e. distance
√0.02 ≈ 0.1414), and no pair involving index 1 of either collection. -/
theorem match_concrete_scenario :
    matchE ⟨2, [[0, 0], [5, 5]]⟩ ⟨2, [[1/10, 1/10], [10, 10]]⟩ 1 none
      = .ok [(0, 0, 1/50)] := by
  rw [matchE_eq_core ⟨2, [[0, 0], [5, 5]]⟩ ⟨2, [[1/10, 1/10], [10, 10]]⟩ 1 one_pos
    (by simp [Frame.WF]) (by simp [Frame.WF]) rfl]
  rw [if_neg (show ¬((⟨2, [[1/10, 1/10], [10, 10]]⟩ : Frame).rows.length
      > (⟨2, [[0, 0], [5, 5]]⟩ : Frame).rows.length) from by simp)]
  rw [show (13:ℚ)/10 * 1 = 13/10 from by norm_num,
    show (1:ℚ)^2 = 1 from by norm_num]
  have q00 : quantize (13/10) ([0, 0] : List ℚ) = [0, 0] := by
    simp only [quantize, List.map_cons, List.map_nil]
    norm_num [round_eq]
  have q01 : quantize (13/10) ([5, 5] : List ℚ) = [4, 4] := by
    simp only [quantize, List.map_cons, List.map_nil]
    norm_num [round_eq]
  have q10 : quantize (13/10) ([1/10, 1/10] : List ℚ) = [0, 0] := by
    simp only [quantize, List.map_cons, List.map_nil]
    norm_num [round_eq]
  have q11 : quantize (13/10) ([10, 10] : List ℚ) = [8, 8] := by
    simp only [quantize, List.map_cons, List.map_nil]
    norm_num [round_eq]
  have c00 : candB (neighborhood (21/10) 2 false) [0, 0] [0, 0] = true :=
    candB_refl _ _
  have c01 : candB (neighborhood (21/10) 2 false) [0, 0] [8, 8] = false := by
    refine candB_eq_false_of_big (21/10) 2 _ _ (by simp) ?_ (by simp)
    simp only [List.zipWith_cons_cons, List.zipWith_nil_right]
    norm_num [normSq, List.map_cons, List.map_nil, List.sum_cons, List.sum_nil]
  have c10 : candB (neighborhood (21/10) 2 false) [4, 4] [0, 0] = false := by
    refine candB_eq_false_of_big (21/10) 2 _ _ (by simp) ?_ (by simp)
    simp only [List.zipWith_cons_cons, List.zipWith_nil_right]
    norm_num [normSq, List.map_cons, List.map_nil, List.sum_cons, List.sum_nil]
  have c11 : candB (neighborhood (21/10) 2 false) [4, 4] [8, 8] = false := by
    refine candB_eq_false_of_big (21/10) 2 _ _ (by simp) ?_ (by simp)
    simp only [List.zipWith_cons_cons, List.zipWith_nil_right]
    norm_num [normSq, List.map_cons, List.map_nil, List.sum_cons, List.sum_nil]
  have d00 : distSq ([0, 0] : List ℚ) ([1/10, 1/10] : List ℚ) = 1/50 := by
    simp only [distSq, List.zipWith_cons_cons, List.zipWith_nil_right,
      List.sum_cons, List.sum_nil]
    norm_num
  have dec00 : decide (distSq ([0, 0] : List ℚ) ([1/10, 1/10] : List ℚ) ≤ 1) = true :=
    decide_eq_true (by rw [d00]; norm_num)
  have dec50 : decide ((1:ℚ)/50 ≤ 1) = true := decide_eq_true (by norm_num)
  simp only [coreList, List.length_cons, List.length_nil, List.range_succ,
    List.range_zero, List.nil_append, List.cons_append, List.append_nil,
    List.flatMap_cons, List.flatMap_nil, List.filter_cons, List.filter_nil,
    List.map_cons, List.map_nil, List.getD_cons_zero, List.getD_cons_succ,
    q00, q01, q10, q11, c00, c01, c10, c11, dec00, dec50, d00, Bool.false_and,
    Bool.true_and, Bool.false_eq_true, eq_self_iff_true, if_true, if_false]
